import Mathlib

/-!
Verification of the advent-of-code-2020 repository (Rust) against its
natural-language specification.  The Rust sources are shallowly embedded:
strings become `List Char`, machine integers become `Nat`/`Int` with explicit
range checks at the widths the Rust code uses (`usize` = 64-bit, `i32`,
`i16`, `u16`), fallible code returns `Except`/`Option`, and a Rust panic is
modelled as an outer `Option` being `none`.
-/

namespace AoC2020

/-- Strings are modelled as lists of characters. -/
abbrev Str := List Char

/-! ## Shared parsing helpers (src/lib.rs, `parsing` module) -/

/-- Model of Rust `str::split_inclusive('\n')`: chunks of the string, each
chunk keeping its terminating newline; an empty string gives no chunks. -/
def splitInclusiveNl : Str → List Str
  | [] => []
  | c :: rest =>
    if c = '\n' then [c] :: splitInclusiveNl rest
    else
      match splitInclusiveNl rest with
      | [] => [[c]]
      | l :: ls => (c :: l) :: ls

/-- Strip a trailing `"\r\n"` or `"\n"` from a chunk.  This single function
models both the per-line map inside Rust `str::lines` (strip `'\n'`, and then
`'\r'` only when the `'\n'` was present) and the
`strip_suffix("\r\n").or_else(strip_suffix("\n"))` in
`parsing::lines_without_endings`, which compute the same function. -/
def stripNlCr (l : Str) : Str :=
  match l.reverse with
  | '\n' :: '\r' :: rest => rest.reverse
  | '\n' :: rest => rest.reverse
  | _ => l

/-- Model of Rust `str::lines`. -/
def rustLines (s : Str) : List Str :=
  (splitInclusiveNl s).map stripNlCr

/-- `parsing::lines_without_endings` from src/lib.rs: `s.lines()` followed by
stripping a `"\r\n"` or `"\n"` suffix from each line. -/
def lines_without_endings (s : Str) : List Str :=
  (rustLines s).map stripNlCr

/-- Numeric value of an ASCII digit. -/
def digitVal? (c : Char) : Option Nat :=
  if '0' ≤ c ∧ c ≤ '9' then some (c.toNat - 48) else none

/-- Accumulate decimal digits; fails on any non-digit character. -/
def parseDigitsAux : Nat → Str → Option Nat
  | acc, [] => some acc
  | acc, c :: rest => (digitVal? c).bind fun d => parseDigitsAux (acc * 10 + d) rest

/-- Parse a non-empty all-digit string as a natural number. -/
def parseDigits : Str → Option Nat
  | [] => none
  | c :: rest => parseDigitsAux 0 (c :: rest)

/-- Model of Rust `i16::from_str`: optional `'+'` or `'-'` sign, then
decimal digits, with the value required to fit in `i16`. -/
def rustParseI16 (s : Str) : Option Int :=
  match s with
  | '+' :: rest => (parseDigits rest).bind fun n => if n ≤ 32767 then some (n : Int) else none
  | '-' :: rest => (parseDigits rest).bind fun n => if n ≤ 32768 then some (-(n : Int)) else none
  | _ => (parseDigits s).bind fun n => if n ≤ 32767 then some (n : Int) else none

/-- Model of Rust `u16::from_str`: optional `'+'` sign, then decimal digits,
with the value required to fit in `u16` (a leading `'-'` is rejected because
`'-'` is not a digit). -/
def rustParseU16 (s : Str) : Option Nat :=
  match s with
  | '+' :: rest => (parseDigits rest).bind fun n => if n ≤ 65535 then some n else none
  | _ => (parseDigits s).bind fun n => if n ≤ 65535 then some n else none

/-- Largest value of Rust `usize` (64-bit). -/
def USIZE_MAX : Nat := 2 ^ 64 - 1

/-- Smallest value of Rust `i32`. -/
def I32_MIN : Int := -(2 ^ 31)

/-- Largest value of Rust `i32`. -/
def I32_MAX : Int := 2 ^ 31 - 1

/-! ## Day 8 (src/src/days/d08.rs): boot-code emulator -/

namespace D08

inductive BootCodeOperation
  | Accumulate
  | Jump
  | NoOp
deriving DecidableEq, Repr

structure BootCodeInstruction where
  operation : BootCodeOperation
  argument : Int
deriving DecidableEq, Repr

structure BootCodeEmulator where
  instruction_counter : Nat
  accumulator : Int
deriving DecidableEq, Repr

/-- `BootCodeEmulator::zeroed`. -/
def BootCodeEmulator.zeroed : BootCodeEmulator :=
  { instruction_counter := 0, accumulator := 0 }

/-- `BootCodeEmulator::execute_single_instruction`.  The result is `none`
when the Rust code panics (the `checked_neg().unwrap()` on a jump argument of
`-32768`, the only unchecked failure path), `some (.error _)` when it returns
`Err`, and `some (.ok em)` with the updated emulator on success. -/
def execute_single_instruction (instructions : List BootCodeInstruction)
    (em : BootCodeEmulator) : Option (Except String BootCodeEmulator) :=
  match instructions[em.instruction_counter]? with
  | none => some (Except.error "instruction counter out-of-bounds")
  | some inst =>
    match inst.operation with
    | BootCodeOperation.NoOp =>
      if em.instruction_counter + 1 ≤ USIZE_MAX then
        some (Except.ok { em with instruction_counter := em.instruction_counter + 1 })
      else some (Except.error "next instruction counter increment overflows")
    | BootCodeOperation.Jump =>
      if 0 < inst.argument then
        if em.instruction_counter + inst.argument.toNat ≤ USIZE_MAX then
          some (Except.ok { em with
            instruction_counter := em.instruction_counter + inst.argument.toNat })
        else some (Except.error "jump instruction overflowed")
      else
        if inst.argument = -32768 then
          none
        else if (-inst.argument).toNat ≤ em.instruction_counter then
          some (Except.ok { em with
            instruction_counter := em.instruction_counter - (-inst.argument).toNat })
        else some (Except.error "jump instruction underflowed")
    | BootCodeOperation.Accumulate =>
      if I32_MIN ≤ em.accumulator + inst.argument ∧ em.accumulator + inst.argument ≤ I32_MAX then
        if em.instruction_counter + 1 ≤ USIZE_MAX then
          some (Except.ok { instruction_counter := em.instruction_counter + 1,
                            accumulator := em.accumulator + inst.argument })
        else some (Except.error "next instruction counter increment overflows")
      else some (Except.error "accumulator went out-of-range")

/-- Rust `raw_argument.strip_prefix("+").unwrap_or(raw_argument)`. -/
def stripPlus (s : Str) : Str :=
  match s with
  | '+' :: rest => rest
  | _ => s

/-- The operation-mnemonic match in `parse_instructions`. -/
def operationFromStr (l : Str) : Option BootCodeOperation :=
  if l = "acc".data then some BootCodeOperation.Accumulate
  else if l = "jmp".data then some BootCodeOperation.Jump
  else if l = "nop".data then some BootCodeOperation.NoOp
  else none

/-- Rust `line.splitn(2, ' ').collect_tuple()`: split at the first space,
failing when the line contains no space. -/
def splitFirstSpace : Str → Option (Str × Str)
  | [] => none
  | c :: rest =>
    if c = ' ' then some ([], rest)
    else (splitFirstSpace rest).map fun p => (c :: p.1, p.2)

/-- Parsing of a single line inside `parse_instructions`. -/
def parseLine (l : Str) : Except String BootCodeInstruction :=
  match splitFirstSpace l with
  | none => Except.error "expected a space dividing "
  | some (rawOperation, rawArgument) =>
    match operationFromStr rawOperation with
    | none => Except.error "invalid operation"
    | some op =>
      match rustParseI16 (stripPlus rawArgument) with
      | none => Except.error "argument is outside i16 range"
      | some a => Except.ok { operation := op, argument := a }

/-- The `collect::<Result<Vec<_>, _>>` over the parsed lines: one instruction
per line, stopping at the first failing line. -/
def parse_instructions_aux : List Str → Except String (List BootCodeInstruction)
  | [] => Except.ok []
  | l :: rest =>
    match parseLine l with
    | Except.error e => Except.error e
    | Except.ok i => (parse_instructions_aux rest).map (i :: ·)

/-- `parse_instructions`: parse every line, propagating the first error. -/
def parse_instructions (s : Str) : Except String (List BootCodeInstruction) :=
  parse_instructions_aux (lines_without_endings s)

/-- The line shape named by the spec for C4, written from the claim's words:
an operation mnemonic in {acc, jmp, nop} followed by a single space and an
integer argument (optionally `'+'`-prefixed) representable as an `i16`. -/
def goodInstructionLine (l : Str) : Bool :=
  (l.take 4 == "acc ".data || l.take 4 == "jmp ".data ||
    l.take 4 == "nop ".data) &&
  (rustParseI16 (stripPlus (l.drop 4))).isSome

/-- The `while previously_seen_inst_counters.insert(..)` loop of `part_1`,
with explicit fuel (the loop performs at most `instructions.length + 1`
iterations, proved below).  `seen` is the set of already-seen instruction
counters, kept as a list in insertion order. -/
def part1Loop (instructions : List BootCodeInstruction) :
    Nat → List Nat → BootCodeEmulator → Option (Except String Int)
  | 0, _, _ => some (Except.error "fuel exhausted")
  | fuel + 1, seen, em =>
    if em.instruction_counter ∈ seen then
      some (Except.ok em.accumulator)
    else
      match execute_single_instruction instructions em with
      | none => none
      | some (Except.error e) => some (Except.error e)
      | some (Except.ok em') =>
        part1Loop instructions fuel (em.instruction_counter :: seen) em'

/-- `part_1`.  `none` models a panic; `some (.error _)` an `Err`;
`some (.ok acc)` the accumulator on normal return. -/
def part_1 (s : Str) : Option (Except String Int) :=
  match parse_instructions s with
  | Except.error e => some (Except.error e)
  | Except.ok instructions =>
    part1Loop instructions (instructions.length + 1) [] BootCodeEmulator.zeroed

/-- The hard-coded nine-instruction sample program of d08.rs. -/
def SAMPLE : Str :=
  ("nop +0\nacc +1\njmp +4\nacc +3\njmp -3\nacc -99\nacc +1\njmp -4\nacc +6\n").data

/-- The instruction list that `SAMPLE` parses to. -/
def SAMPLE_INSTRUCTIONS : List BootCodeInstruction :=
  [{ operation := BootCodeOperation.NoOp, argument := 0 },
   { operation := BootCodeOperation.Accumulate, argument := 1 },
   { operation := BootCodeOperation.Jump, argument := 4 },
   { operation := BootCodeOperation.Accumulate, argument := 3 },
   { operation := BootCodeOperation.Jump, argument := -3 },
   { operation := BootCodeOperation.Accumulate, argument := -99 },
   { operation := BootCodeOperation.Accumulate, argument := 1 },
   { operation := BootCodeOperation.Jump, argument := -4 },
   { operation := BootCodeOperation.Accumulate, argument := 6 }]

/-- The operation replacement tried by `part_2`: `Accumulate` is never
changed (the trial is skipped), `NoOp` becomes `Jump` and `Jump` becomes
`NoOp`. -/
def swapOperation : BootCodeOperation → Option BootCodeOperation
  | BootCodeOperation.Accumulate => none
  | BootCodeOperation.NoOp => some BootCodeOperation.Jump
  | BootCodeOperation.Jump => some BootCodeOperation.NoOp

/-- The inner run loop of `part_2`: terminate with the accumulator when the
instruction counter reaches exactly the program length, filter the trial out
(`some none`) when an instruction counter repeats, propagate execution errors
(`some (some (.error _))`) and panics (`none`). -/
def part2RunLoop (instructions : List BootCodeInstruction) :
    Nat → List Nat → BootCodeEmulator → Option (Option (Except String Int))
  | 0, _, _ => some none
  | fuel + 1, seen, em =>
    if em.instruction_counter = instructions.length then
      some (some (Except.ok em.accumulator))
    else if em.instruction_counter ∈ seen then
      some none
    else
      match execute_single_instruction instructions em with
      | none => none
      | some (Except.error e) => some (some (Except.error e))
      | some (Except.ok em') =>
        part2RunLoop instructions fuel (em.instruction_counter :: seen) em'

/-- One trial run of `part_2` on a (mutated) program, from the zeroed
emulator. -/
def runTrial (instructions : List BootCodeInstruction) :
    Option (Option (Except String Int)) :=
  part2RunLoop instructions (instructions.length + 1) [] BootCodeEmulator.zeroed

/-- The trial iteration of `part_2`, modelling the source's mutate-run-restore
pattern explicitly: `cur` is the current (mutable) instruction list; at each
change index the operation is swapped in place, the trial is run, and the
original instruction is written back before the remaining trials.  The result
is the collected list of interesting trial results paired with the final
state of the instruction list (`none` when some trial panics). -/
def part2Trials (cur : List BootCodeInstruction) :
    List Nat → Option (List (Except String Int) × List BootCodeInstruction)
  | [] => some ([], cur)
  | change_idx :: rest =>
    match cur[change_idx]? with
    | none => part2Trials cur rest
    | some original =>
      match swapOperation original.operation with
      | none => part2Trials cur rest
      | some changed =>
        let mutated := cur.set change_idx
          { operation := changed, argument := original.argument }
        let restored := mutated.set change_idx original
        match runTrial mutated with
        | none => none
        | some none => part2Trials restored rest
        | some (some r) =>
          (part2Trials restored rest).map fun p => (r :: p.1, p.2)

/-- `part_2`.  `none` models a panic: either a panic inside a trial run, the
`.first().unwrap()` on an empty result list, or the `.as_ref().unwrap()` on a
first result that is an `Err`. -/
def part_2 (s : Str) : Option (Except String Int) :=
  match parse_instructions s with
  | Except.error e => some (Except.error e)
  | Except.ok instructions =>
    match part2Trials instructions (List.range instructions.length) with
    | none => none
    | some ([], _) => none
    | some (Except.error _ :: _, _) => none
    | some (Except.ok a :: _, _) => some (Except.ok a)

/-- `Steps instructions em trace em'` holds when the emulator steps from `em`
to `em'` by successful single-instruction executions, the visited instruction
counters being `trace` in execution order. -/
inductive Steps (instructions : List BootCodeInstruction) :
    BootCodeEmulator → List Nat → BootCodeEmulator → Prop
  | refl (em : BootCodeEmulator) : Steps instructions em [] em
  | step {em em' em'' : BootCodeEmulator} {trace : List Nat} :
      execute_single_instruction instructions em = some (Except.ok em') →
      Steps instructions em' trace em'' →
      Steps instructions em (em.instruction_counter :: trace) em''

end D08

/-! ## Day 11 (src/src/days/d11.rs): waiting-area seating simulation -/

namespace D11

inductive WaitingAreaMapTile
  | Seat (occupied : Bool)
  | Floor
deriving DecidableEq, Repr

structure WaitingAreaMap where
  tiles : List WaitingAreaMapTile
  map_width : Nat
deriving DecidableEq, Repr

/-- An occupant behavior: the two `WaitingAreaOccupantBehavior` trait
methods.  Both implementations in d11.rs are pure functions of the previous
map and the tile index, and the claims quantify over arbitrary behaviors, so
a behavior is a pair of such functions. -/
structure WaitingAreaOccupantBehavior where
  would_enter_seat : WaitingAreaMap → Nat → Bool
  would_leave_seat : WaitingAreaMap → Nat → Bool

/-- Map a function receiving the element index over a list, starting the
index count at `idx` (the `enumerate` of the source's tile iteration). -/
def mapWithIndex {α β : Type} (f : Nat → α → β) : Nat → List α → List β
  | _, [] => []
  | idx, t :: rest => f idx t :: mapWithIndex f (idx + 1) rest

/-- Whether a predicate receiving the element index holds anywhere in a list,
the index count starting at `idx`. -/
def anyWithIndex {α : Type} (f : Nat → α → Bool) : Nat → List α → Bool
  | _, [] => false
  | idx, t :: rest => f idx t || anyWithIndex f (idx + 1) rest

/-- The per-tile update of `WaitingAreaSeatingSimulation::next_step`: an
unoccupied seat becomes occupied when the behavior would enter it, an
occupied seat becomes unoccupied when the behavior would leave it, and every
other tile (including all floor) is copied unchanged. -/
def next_tile (b : WaitingAreaOccupantBehavior) (m : WaitingAreaMap)
    (idx : Nat) (t : WaitingAreaMapTile) : WaitingAreaMapTile :=
  match t with
  | WaitingAreaMapTile.Seat false =>
    if b.would_enter_seat m idx then WaitingAreaMapTile.Seat true else t
  | WaitingAreaMapTile.Seat true =>
    if b.would_leave_seat m idx then WaitingAreaMapTile.Seat false else t
  | WaitingAreaMapTile.Floor => t

/-- Whether the `changed` flag of `next_step` is set at a given tile: exactly
when one of the two seat rules fires there. -/
def tile_fires (b : WaitingAreaOccupantBehavior) (m : WaitingAreaMap)
    (idx : Nat) (t : WaitingAreaMapTile) : Bool :=
  match t with
  | WaitingAreaMapTile.Seat false => b.would_enter_seat m idx
  | WaitingAreaMapTile.Seat true => b.would_leave_seat m idx
  | WaitingAreaMapTile.Floor => false

/-- The map written to the scratch buffer by one `next_step` call. -/
def next_map (b : WaitingAreaOccupantBehavior) (m : WaitingAreaMap) :
    WaitingAreaMap :=
  { tiles := mapWithIndex (next_tile b m) 0 m.tiles, map_width := m.map_width }

/-- The `changed` flag computed by one `next_step` call. -/
def step_changed (b : WaitingAreaOccupantBehavior) (m : WaitingAreaMap) : Bool :=
  anyWithIndex (tile_fires b m) 0 m.tiles

/-- `WaitingAreaSeatingSimulation::next_step`, with the double buffering
collapsed to the current map: `some` of the updated map when any tile
changed, `none` (keeping the current map) otherwise. -/
def next_step (b : WaitingAreaOccupantBehavior) (m : WaitingAreaMap) :
    Option WaitingAreaMap :=
  if step_changed b m then some (next_map b m) else none

/-- The `while simulation.next_step(..).is_some()` loop of
`num_seats_with_behavior`, with explicit fuel: `some` of the reached
fixed-point map, `none` when the fuel runs out first. -/
def run_simulation (b : WaitingAreaOccupantBehavior) :
    Nat → WaitingAreaMap → Option WaitingAreaMap
  | 0, _ => none
  | fuel + 1, m =>
    match next_step b m with
    | none => some m
    | some m' => run_simulation b fuel m'

/-- The occupied-seat count taken by `num_seats_with_behavior` at the end. -/
def count_occupied (m : WaitingAreaMap) : Nat :=
  m.tiles.countP fun t => decide (t = WaitingAreaMapTile.Seat true)

/-- The body of `num_seats_with_behavior`, generic over the starting map (the
source parses it from the binary-only input file d11.txt, which is not part
of the library sources): iterate `next_step` to exhaustion, then count
occupied seats. -/
def num_seats_from_map (b : WaitingAreaOccupantBehavior) (fuel : Nat)
    (m : WaitingAreaMap) : Option Nat :=
  (run_simulation b fuel m).map count_occupied

/-- Whether a tile is a seat (occupied or not). -/
def tileIsSeat : WaitingAreaMapTile → Bool
  | WaitingAreaMapTile.Seat _ => true
  | WaitingAreaMapTile.Floor => false

end D11

/-! ## Day 10 (src/src/days/d10.rs): joltage-adapter counting -/

namespace D10

/-- `JoltageAdapterSet::joltage_flows_between_adapters`:
`(1..=3).contains(&(target - source))`.  (The source computes the difference
with `checked_sub(..).unwrap()`; every call site below passes
`source ≤ target`, elements of an ascending-sorted list, so the panic branch
is dead and natural subtraction agrees with it.) -/
def joltage_flows_between_adapters (source target : Nat) : Bool :=
  decide (1 ≤ target - source) && decide (target - source ≤ 3)

/-- Per-line `u16` parsing of `JoltageAdapterSet::from_str`, stopping at the
first failing line. -/
def parse_joltage_lines : List Str → Except String (List Nat)
  | [] => Except.ok []
  | l :: rest =>
    match rustParseU16 l with
    | none => Except.error "failed to parse line"
    | some n => (parse_joltage_lines rest).map (n :: ·)

/-- `JoltageAdapterSet::from_str`: parse one adapter per line, require at
least one, append the charging-outlet rating `0`, and sort ascending. -/
def parse_joltage_adapter_set (s : Str) : Except String (List Nat) :=
  match parse_joltage_lines (lines_without_endings s) with
  | Except.error e => Except.error e
  | Except.ok adapters =>
    if adapters = [] then Except.error "no adapters specified"
    else Except.ok (List.insertionSort (· ≤ ·) (adapters ++ [0]))

structure PossibilityAccumulator where
  last_skippable : Nat
  num_consecutive_single_steps : Nat
  num_possible_sequences : Nat
deriving DecidableEq, Repr

/-- `PossibilityAccumulator::new`. -/
def PossibilityAccumulator.new : PossibilityAccumulator :=
  { last_skippable := 0, num_consecutive_single_steps := 0,
    num_possible_sequences := 1 }

/-- `PossibilityAccumulator::on_break_single_step_skippable_streak`: multiply
the possibility count by `2^steps - (2^steps * 3 / 16)` for the closed streak
of `steps` consecutive single-step skippables, with the `u32` conversion,
`checked_pow` and `checked_mul` bounds checks of the source.  (The source's
`naive * 3 / 16` is an unchecked `usize` product; it stays below the checked
`2^steps ≤ USIZE_MAX` bound in every use below, so the exact product is
used.) -/
def PossibilityAccumulator.on_break_single_step_skippable_streak
    (a : PossibilityAccumulator) : Except String PossibilityAccumulator :=
  if a.num_consecutive_single_steps < 2 ^ 32 ∧
      2 ^ a.num_consecutive_single_steps ≤ USIZE_MAX then
    let naive := 2 ^ a.num_consecutive_single_steps
    if a.num_possible_sequences * (naive - naive * 3 / 16) ≤ USIZE_MAX then
      Except.ok { a with
        num_possible_sequences :=
          a.num_possible_sequences * (naive - naive * 3 / 16),
        num_consecutive_single_steps := 0 }
    else Except.error "accumulated possible sequences no representable with usize"
  else Except.error "naive number of new possible sequences not representable with usize"

/-- `PossibilityAccumulator::accumulate`. -/
def PossibilityAccumulator.accumulate (a : PossibilityAccumulator)
    (skippable : Nat) : Except String PossibilityAccumulator :=
  let stepped : Except String PossibilityAccumulator :=
    if a.last_skippable + 1 = skippable then
      Except.ok { a with
        num_consecutive_single_steps := a.num_consecutive_single_steps + 1 }
    else
      (a.on_break_single_step_skippable_streak).map fun a' =>
        { a' with num_consecutive_single_steps := 1 }
  stepped.map fun a' => { a' with last_skippable := skippable }

/-- `PossibilityAccumulator::finished`. -/
def PossibilityAccumulator.finished (a : PossibilityAccumulator) :
    Except String Nat :=
  (a.on_break_single_step_skippable_streak).map fun a' =>
    a'.num_possible_sequences

/-- `slice::windows(3)` on a list of adapter ratings. -/
def windows3 : List Nat → List (Nat × Nat × Nat)
  | a :: b :: c :: rest => (a, b, c) :: windows3 (b :: c :: rest)
  | _ => []

/-- The skippable middle elements: middles of windows whose outer elements
are within joltage-flow range of each other. -/
def skippable_mids (l : List Nat) : List Nat :=
  (windows3 l).filterMap fun w =>
    if joltage_flows_between_adapters w.1 w.2.2 then some w.2.1 else none

/-- The `try_for_each(|skippable| acc.accumulate(skippable))` fold. -/
def foldAccumulate :
    PossibilityAccumulator → List Nat → Except String PossibilityAccumulator
  | a, [] => Except.ok a
  | a, s :: rest =>
    match a.accumulate s with
    | Except.error e => Except.error e
    | Except.ok a' => foldAccumulate a' rest

/-- `JoltageAdapterSet::num_valid_variants`. -/
def num_valid_variants (adapters : List Nat) : Except String Nat :=
  match foldAccumulate PossibilityAccumulator.new (skippable_mids adapters) with
  | Except.error e => Except.error e
  | Except.ok a => a.finished

/-- The first hard-coded sample of d10.rs. -/
def FIRST_SAMPLE : Str := ("16\n10\n15\n5\n1\n11\n7\n19\n6\n12\n4\n").data

end D10

/-! ## Theorems -/

/-- The inclusive chunks concatenate back to the original string. -/
lemma splitInclusiveNl_join (s : Str) : (splitInclusiveNl s).flatten = s := by
  induction s with
  | nil => rfl
  | cons c rest ih =>
    by_cases hc : c = '\n'
    · subst hc
      simp [splitInclusiveNl, ih]
    · rw [splitInclusiveNl, if_neg hc]
      cases hsp : splitInclusiveNl rest with
      | nil =>
        rw [hsp] at ih
        simpa using ih.symm
      | cons l ls =>
        rw [hsp] at ih
        simpa using ih

/-- Every chunk of `splitInclusiveNl` contains a newline at most as its last
character. -/
lemma splitInclusiveNl_shape (s : Str) :
    ∀ l ∈ splitInclusiveNl s,
      ('\n' ∉ l) ∨ ∃ body, l = body ++ ['\n'] ∧ '\n' ∉ body := by
  induction s with
  | nil => intro l hl; exact absurd hl (List.not_mem_nil l)
  | cons c rest ih =>
    intro l hl
    by_cases hc : c = '\n'
    · subst hc
      rw [splitInclusiveNl, if_pos rfl] at hl
      rcases List.mem_cons.mp hl with rfl | h
      · exact Or.inr ⟨[], rfl, by simp⟩
      · exact ih l h
    · rw [splitInclusiveNl, if_neg hc] at hl
      cases hsp : splitInclusiveNl rest with
      | nil =>
        rw [hsp] at hl
        rcases List.mem_singleton.mp hl with rfl
        refine Or.inl ?_
        intro hm
        rcases List.mem_singleton.mp hm with rfl
        exact hc rfl
      | cons l0 ls =>
        rw [hsp] at hl
        rcases List.mem_cons.mp hl with rfl | h
        · have hmem0 : l0 ∈ splitInclusiveNl rest := by
            rw [hsp]; exact List.mem_cons_self l0 ls
          rcases ih l0 hmem0 with h1 | ⟨body, hbody, hnb⟩
          · refine Or.inl ?_
            intro hm
            rcases List.mem_cons.mp hm with he | hm'
            · exact hc he.symm
            · exact h1 hm'
          · refine Or.inr ⟨c :: body, by rw [hbody]; rfl, ?_⟩
            intro hm
            rcases List.mem_cons.mp hm with he | hm'
            · exact hc he.symm
            · exact hnb hm'
        · exact ih l (by rw [hsp]; exact List.mem_cons_of_mem l0 h)

/-- Stripping a line ending from a string not containing a newline is the
identity. -/
lemma stripNlCr_eq_self {l : Str} (h : '\n' ∉ l) : stripNlCr l = l := by
  rw [stripNlCr]
  split
  · rename_i rest heq
    exact absurd (by rw [← List.mem_reverse, heq]; simp : '\n' ∈ l) h
  · rename_i rest heq
    exact absurd (by rw [← List.mem_reverse, heq]; simp : '\n' ∈ l) h
  · rfl

/-- The stripped form of a `splitInclusiveNl` chunk contains no newline. -/
lemma nl_not_mem_stripNlCr {l : Str}
    (h : ('\n' ∉ l) ∨ ∃ body, l = body ++ ['\n'] ∧ '\n' ∉ body) :
    '\n' ∉ stripNlCr l := by
  rcases h with h | ⟨body, rfl, hb⟩
  · rw [stripNlCr_eq_self h]; exact h
  · have hrev : (body ++ ['\n']).reverse = '\n' :: body.reverse := by simp
    rw [stripNlCr, hrev]
    split
    · rename_i rest heq
      obtain ⟨-, hbr⟩ := List.cons.injEq .. ▸ heq
      intro hm
      apply hb
      rw [← List.mem_reverse, hbr]
      exact List.mem_cons_of_mem _ (List.mem_reverse.mp hm)
    · rename_i rest heq
      obtain ⟨-, hbr⟩ := List.cons.injEq .. ▸ heq
      intro hm
      apply hb
      rw [← List.mem_reverse, hbr]
      exact List.mem_reverse.mp hm
    · rename_i hne
      exact absurd rfl (hne body.reverse)

/-- `lines_without_endings` is exactly the chunk list with one line-ending
strip applied to each chunk (the second strip in the source is the
identity on already-stripped lines). -/
lemma lines_without_endings_eq_map (s : Str) :
    lines_without_endings s = (splitInclusiveNl s).map stripNlCr := by
  rw [lines_without_endings, rustLines, List.map_map]
  exact List.map_congr_left fun l hl =>
    stripNlCr_eq_self (nl_not_mem_stripNlCr (splitInclusiveNl_shape s l hl))

/-- C5: `lines_without_endings` yields exactly the lines of the input in
order — the inclusive line chunks, which concatenate back to the input —
each with any trailing `"\r\n"` or `"\n"` removed, and no yielded item ends
with a line terminator (it contains no newline at all). -/
theorem lines_without_endings_spec :
    ∀ s : Str,
      (splitInclusiveNl s).flatten = s ∧
      lines_without_endings s = (splitInclusiveNl s).map stripNlCr ∧
      ∀ l ∈ lines_without_endings s, '\n' ∉ l ∧ l.getLast? ≠ some '\n' := by
  intro s
  refine ⟨splitInclusiveNl_join s, lines_without_endings_eq_map s, ?_⟩
  intro l hl
  rw [lines_without_endings_eq_map s] at hl
  obtain ⟨chunk, hchunk, rfl⟩ := List.mem_map.mp hl
  have hno := nl_not_mem_stripNlCr (splitInclusiveNl_shape s chunk hchunk)
  exact ⟨hno, fun hlast => hno (List.mem_of_mem_getLast? hlast)⟩

/-- Witness for C5: the specification evaluated on `"ab\r\ncd\n"`, whose
first yielded line is `"ab"`. -/
theorem lines_without_endings_spec_witness :
    (splitInclusiveNl ("ab\r\ncd\n").data).flatten = ("ab\r\ncd\n").data ∧
    lines_without_endings ("ab\r\ncd\n").data =
      (splitInclusiveNl ("ab\r\ncd\n").data).map stripNlCr ∧
    ('\n' ∉ ("ab").data ∧ ("ab").data.getLast? ≠ some '\n') :=
  ⟨(lines_without_endings_spec ("ab\r\ncd\n").data).1,
   (lines_without_endings_spec ("ab\r\ncd\n").data).2.1,
   (lines_without_endings_spec ("ab\r\ncd\n").data).2.2 ("ab").data (by decide)⟩

namespace D08

/-- A successful instruction execution implies the instruction counter was a
valid index (the fetch succeeded). -/
lemma ic_lt_of_execute_ok {instructions : List BootCodeInstruction}
    {em em' : BootCodeEmulator}
    (h : execute_single_instruction instructions em = some (Except.ok em')) :
    em.instruction_counter < instructions.length := by
  by_contra hlt
  have hnone : instructions[em.instruction_counter]? = none :=
    List.getElem?_eq_none (Nat.le_of_not_lt hlt)
  simp [execute_single_instruction, hnone] at h

/-- `execute_single_instruction` panics (result `none`) exactly when the
fetched instruction is a jump whose argument is `-32768`, the one value whose
`i16` negation overflows (`checked_neg().unwrap()`). -/
lemma execute_panic_iff {instructions : List BootCodeInstruction}
    {em : BootCodeEmulator} :
    execute_single_instruction instructions em = none ↔
    ∃ inst, instructions[em.instruction_counter]? = some inst ∧
      inst.operation = BootCodeOperation.Jump ∧ inst.argument = -32768 := by
  constructor
  · intro h
    cases hg : instructions[em.instruction_counter]? with
    | none => simp [execute_single_instruction, hg] at h
    | some inst =>
      obtain ⟨op, arg⟩ := inst
      cases op with
      | Accumulate =>
        simp only [execute_single_instruction, hg] at h
        split at h
        · split at h <;> simp at h
        · simp at h
      | NoOp =>
        simp only [execute_single_instruction, hg] at h
        split at h <;> simp at h
      | Jump =>
        simp only [execute_single_instruction, hg] at h
        split at h
        · split at h <;> simp at h
        · split at h
          · exact ⟨⟨BootCodeOperation.Jump, arg⟩, rfl, rfl, by assumption⟩
          · split at h <;> simp at h
  · rintro ⟨inst, hg, hop, harg⟩
    obtain ⟨op, arg⟩ := inst
    cases hop
    cases harg
    simp [execute_single_instruction, hg]

/-- Full characterization of the `part_1` while-loop: from any state it
produces a `Steps` trace of pairwise-fresh instruction counters and stops at
a revisit (returning the accumulator), at a failing execution (returning its
error), or at a panicking execution. -/
lemma part1Loop_characterization (instructions : List BootCodeInstruction) :
    ∀ (fuel : Nat) (seen : List Nat) (em : BootCodeEmulator),
      seen.Nodup → (∀ x ∈ seen, x < instructions.length) →
      instructions.length - seen.length < fuel →
      ∃ (trace : List Nat) (em' : BootCodeEmulator),
        Steps instructions em trace em' ∧ (trace ++ seen).Nodup ∧
        ((em'.instruction_counter ∈ trace ++ seen ∧
            part1Loop instructions fuel seen em = some (Except.ok em'.accumulator)) ∨
          (em'.instruction_counter ∉ trace ++ seen ∧
            (∃ e, execute_single_instruction instructions em' = some (Except.error e) ∧
              part1Loop instructions fuel seen em = some (Except.error e))) ∨
          (em'.instruction_counter ∉ trace ++ seen ∧
            execute_single_instruction instructions em' = none ∧
            part1Loop instructions fuel seen em = none)) := by
  intro fuel
  induction fuel with
  | zero => intro seen em _ _ hfuel; omega
  | succ n ih =>
    intro seen em hnd hmemlt hfuel
    by_cases hmem : em.instruction_counter ∈ seen
    · exact ⟨[], em, Steps.refl em, by simpa using hnd,
        Or.inl ⟨by simpa using hmem, by simp [part1Loop, hmem]⟩⟩
    · cases hex : execute_single_instruction instructions em with
      | none =>
        exact ⟨[], em, Steps.refl em, by simpa using hnd,
          Or.inr (Or.inr ⟨by simpa using hmem, hex, by simp [part1Loop, hmem, hex]⟩)⟩
      | some r =>
        cases r with
        | error e =>
          exact ⟨[], em, Steps.refl em, by simpa using hnd,
            Or.inr (Or.inl ⟨by simpa using hmem, e, hex,
              by simp [part1Loop, hmem, hex]⟩)⟩
        | ok em' =>
          have hic : em.instruction_counter < instructions.length :=
            ic_lt_of_execute_ok hex
          have hnd' : (em.instruction_counter :: seen).Nodup :=
            List.nodup_cons.mpr ⟨hmem, hnd⟩
          have hmemlt' : ∀ x ∈ em.instruction_counter :: seen,
              x < instructions.length := by
            intro x hx
            rcases List.mem_cons.mp hx with hx | hx
            · exact hx ▸ hic
            · exact hmemlt x hx
          have hsub : (em.instruction_counter :: seen) ⊆
              List.range instructions.length := by
            intro x hx
            exact List.mem_range.mpr (hmemlt' x hx)
          have hlen : (em.instruction_counter :: seen).length ≤
              instructions.length := by
            simpa using (hnd'.subperm hsub).length_le
          have hfuel' : instructions.length -
              (em.instruction_counter :: seen).length < n := by
            simp only [List.length_cons] at hlen ⊢
            omega
          obtain ⟨trace', em'', hsteps, hnd'', hres⟩ :=
            ih (em.instruction_counter :: seen) em' hnd' hmemlt' hfuel'
          have hperm : (trace' ++ em.instruction_counter :: seen).Perm
              ((em.instruction_counter :: trace') ++ seen) :=
            List.perm_middle
          have hloopeq : part1Loop instructions (n + 1) seen em =
              part1Loop instructions n (em.instruction_counter :: seen) em' := by
            simp [part1Loop, hmem, hex]
          refine ⟨em.instruction_counter :: trace', em'',
            Steps.step hex hsteps, hperm.nodup hnd'', ?_⟩
          rcases hres with ⟨hin, heq⟩ | ⟨hnin, e, hexe, heq⟩ | ⟨hnin, hexe, heq⟩
          · exact Or.inl ⟨hperm.mem_iff.mp hin, by rw [hloopeq]; exact heq⟩
          · exact Or.inr (Or.inl ⟨fun hc => hnin (hperm.mem_iff.mpr hc), e, hexe,
              by rw [hloopeq]; exact heq⟩)
          · exact Or.inr (Or.inr ⟨fun hc => hnin (hperm.mem_iff.mpr hc), hexe,
              by rw [hloopeq]; exact heq⟩)

/-- C1 (amended): for every input string that `parse_instructions` accepts,
`part_1` runs the fetch-decode-execute loop from the zeroed emulator with
cycle detection: there is a trace of successful single-instruction executions
starting at the zeroed emulator whose instruction counters are pairwise
distinct (no instruction index is executed twice), and `part_1` either stops
at the first revisited instruction counter returning `Ok` of the accumulator
at that moment, or returns the `Err` of the first failing execution, or — the
amendment — panics (modelled as `none`) when the execution reaches a jump
instruction whose argument is `-32768`, the one argument whose `i16`
`checked_neg().unwrap()` fails. -/
theorem part_1_cycle_detection_characterization (s : Str)
    (instructions : List BootCodeInstruction)
    (h : parse_instructions s = Except.ok instructions) :
    ∃ (trace : List Nat) (em' : BootCodeEmulator),
      Steps instructions BootCodeEmulator.zeroed trace em' ∧
      trace.Nodup ∧
      ((em'.instruction_counter ∈ trace ∧
          part_1 s = some (Except.ok em'.accumulator)) ∨
        (em'.instruction_counter ∉ trace ∧
          (∃ e, execute_single_instruction instructions em' = some (Except.error e) ∧
            part_1 s = some (Except.error e))) ∨
        (em'.instruction_counter ∉ trace ∧
          (∃ inst, instructions[em'.instruction_counter]? = some inst ∧
            inst.operation = BootCodeOperation.Jump ∧ inst.argument = -32768) ∧
          part_1 s = none)) := by
  obtain ⟨trace, em', hsteps, hnd, hres⟩ :=
    part1Loop_characterization instructions (instructions.length + 1) []
      BootCodeEmulator.zeroed List.nodup_nil (by simp)
      (by simp only [List.length_nil, Nat.sub_zero]; omega)
  have hpart : part_1 s =
      part1Loop instructions (instructions.length + 1) [] BootCodeEmulator.zeroed := by
    simp [part_1, h]
  refine ⟨trace, em', hsteps, by simpa using hnd, ?_⟩
  rcases hres with ⟨hin, heq⟩ | ⟨hnin, e, hexe, heq⟩ | ⟨hnin, hexe, heq⟩
  · exact Or.inl ⟨by simpa using hin, by rw [hpart]; exact heq⟩
  · exact Or.inr (Or.inl ⟨by simpa using hnin, e, hexe, by rw [hpart]; exact heq⟩)
  · exact Or.inr (Or.inr ⟨by simpa using hnin, execute_panic_iff.mp hexe,
      by rw [hpart]; exact heq⟩)

/-- Witness for C1: the characterization applied to the sample program. -/
theorem part_1_cycle_detection_characterization_witness :
    ∃ (trace : List Nat) (em' : BootCodeEmulator),
      Steps SAMPLE_INSTRUCTIONS BootCodeEmulator.zeroed trace em' ∧
      trace.Nodup ∧
      ((em'.instruction_counter ∈ trace ∧
          part_1 SAMPLE = some (Except.ok em'.accumulator)) ∨
        (em'.instruction_counter ∉ trace ∧
          (∃ e, execute_single_instruction SAMPLE_INSTRUCTIONS em' =
              some (Except.error e) ∧
            part_1 SAMPLE = some (Except.error e))) ∨
        (em'.instruction_counter ∉ trace ∧
          (∃ inst, SAMPLE_INSTRUCTIONS[em'.instruction_counter]? = some inst ∧
            inst.operation = BootCodeOperation.Jump ∧ inst.argument = -32768) ∧
          part_1 SAMPLE = none)) :=
  part_1_cycle_detection_characterization SAMPLE SAMPLE_INSTRUCTIONS rfl

/-- Counterexample to C1 as stated: the input `"jmp -32768\n"` is accepted by
`parse_instructions`, yet `part_1` neither returns `Ok` nor `Err` on it — the
execution of the jump panics (`checked_neg().unwrap()` on the `i16` minimum),
modelled as the result `none`. -/
theorem part_1_panics_on_i16_min_jump :
    parse_instructions ("jmp -32768\n").data =
      Except.ok [{ operation := BootCodeOperation.Jump, argument := -32768 }] ∧
    part_1 ("jmp -32768\n").data = none :=
  ⟨rfl, rfl⟩

/-- C7: `part_1` applied to the hard-coded nine-instruction sample program
(`"nop +0"` … `"acc +6"`) returns `Ok(5)`. -/
theorem part_1_sample_eq_five : part_1 SAMPLE = some (Except.ok 5) := rfl

/-- C6: `part_1` is a pure function of its input text.  The only stateful
container in the source, the seen-counters `HashSet`, is only queried for
membership, so the loop's result is invariant under any reordering of the
stored elements, and any two evaluations of `part_1` on the same string are
equal. -/
theorem part_1_deterministic :
    (∀ (instructions : List BootCodeInstruction) (fuel : Nat)
        (seen₁ seen₂ : List Nat) (em : BootCodeEmulator), seen₁.Perm seen₂ →
        part1Loop instructions fuel seen₁ em = part1Loop instructions fuel seen₂ em) ∧
    (∀ s : Str, part_1 s = part_1 s) := by
  constructor
  · intro instructions fuel
    induction fuel with
    | zero => intro seen₁ seen₂ em _; rfl
    | succ n ih =>
      intro seen₁ seen₂ em hperm
      by_cases hmem : em.instruction_counter ∈ seen₁
      · simp [part1Loop, hmem, hperm.mem_iff.mp hmem]
      · have hmem₂ : em.instruction_counter ∉ seen₂ := fun hc =>
          hmem (hperm.mem_iff.mpr hc)
        cases hex : execute_single_instruction instructions em with
        | none => simp [part1Loop, hmem, hmem₂, hex]
        | some r =>
          cases r with
          | error e => simp [part1Loop, hmem, hmem₂, hex]
          | ok em' =>
            simp only [part1Loop, hmem, hmem₂, hex, if_neg, not_false_iff]
            exact ih _ _ _ (hperm.cons em.instruction_counter)
  · intro s
    rfl

/-- Witness for C6: the loop result at a two-element seen-set and its
reordering, and two evaluations of `part_1` on the sample. -/
theorem part_1_deterministic_witness :
    part1Loop [] 1 [0, 1] BootCodeEmulator.zeroed =
      part1Loop [] 1 [1, 0] BootCodeEmulator.zeroed ∧
    part_1 SAMPLE = part_1 SAMPLE :=
  ⟨part_1_deterministic.1 [] 1 [0, 1] [1, 0] BootCodeEmulator.zeroed
      (List.Perm.swap 1 0 []),
    part_1_deterministic.2 SAMPLE⟩

/-- Writing back the element already stored at an index leaves a list
unchanged. -/
lemma set_getElem?_self {α : Type} {l : List α} {i : Nat} {a : α}
    (h : l[i]? = some a) : l.set i a = l := by
  induction l generalizing i with
  | nil => simp at h
  | cons x xs ih =>
    cases i with
    | zero =>
      simp only [List.getElem?_cons_zero, Option.some.injEq] at h
      simp [h]
    | succ n =>
      simp only [List.getElem?_cons_succ] at h
      simp [ih h]

/-- C3: `part_2` performs a single-instruction mutation search.  A trial
exists at an index exactly when the operation there is not `Accumulate`; the
swap sends `NoOp` to `Jump` and `Jump` to `NoOp`, keeping the argument; the
mutated program differs from the current one only at the changed index; and
writing the original instruction back restores the current list exactly, so
the trial iteration continues on the original list after every trial. -/
theorem part_2_single_mutation_and_restore :
    (∀ op, swapOperation op = none ↔ op = BootCodeOperation.Accumulate) ∧
    (∀ op op', swapOperation op = some op' →
      (op = BootCodeOperation.NoOp ∧ op' = BootCodeOperation.Jump) ∨
      (op = BootCodeOperation.Jump ∧ op' = BootCodeOperation.NoOp)) ∧
    (∀ (cur : List BootCodeInstruction) (i : Nat)
        (original : BootCodeInstruction) (changed : BootCodeOperation),
      cur[i]? = some original → swapOperation original.operation = some changed →
      (cur.set i { operation := changed, argument := original.argument }).length
          = cur.length ∧
      (cur.set i { operation := changed, argument := original.argument })[i]?
          = some { operation := changed, argument := original.argument } ∧
      (∀ j, j ≠ i →
        (cur.set i { operation := changed, argument := original.argument })[j]?
          = cur[j]?) ∧
      (cur.set i
          { operation := changed, argument := original.argument }).set i original
        = cur) ∧
    (∀ (instructions : List BootCodeInstruction) (i : Nat) (rest : List Nat)
        (original : BootCodeInstruction) (changed : BootCodeOperation),
      instructions[i]? = some original →
      swapOperation original.operation = some changed →
      part2Trials instructions (i :: rest) =
        match runTrial (instructions.set i
            { operation := changed, argument := original.argument }) with
        | none => none
        | some none => part2Trials instructions rest
        | some (some r) =>
          (part2Trials instructions rest).map fun p => (r :: p.1, p.2)) := by
  refine ⟨?_, ?_, ?_, ?_⟩
  · intro op
    cases op <;> simp [swapOperation]
  · intro op op' h
    cases op <;> simp [swapOperation] at h <;> simp [h]
  · intro cur i original changed hget hswap
    have hlt : i < cur.length := by
      rcases List.getElem?_eq_some.mp hget with ⟨hl, _⟩
      exact hl
    refine ⟨List.length_set cur i _, List.getElem?_set_self hlt, ?_, ?_⟩
    · intro j hj
      exact List.getElem?_set_ne (fun e => hj e.symm)
    · rw [List.set_set]
      exact set_getElem?_self hget
  · intro instructions i rest original changed hget hswap
    have hrestore :
        (instructions.set i
            { operation := changed, argument := original.argument }).set i original
          = instructions := by
      rw [List.set_set]
      exact set_getElem?_self hget
    cases hrt : runTrial (instructions.set i
        { operation := changed, argument := original.argument }) with
    | none => simp only [part2Trials, hget, hswap, hrestore, hrt]
    | some o =>
      cases o with
      | none => simp only [part2Trials, hget, hswap, hrestore, hrt]
      | some r => simp only [part2Trials, hget, hswap, hrestore, hrt]

/-- Witness for C3: restoring the swapped first instruction of the sample
program yields back the sample program. -/
theorem part_2_single_mutation_and_restore_witness :
    (SAMPLE_INSTRUCTIONS.set 0
        { operation := BootCodeOperation.Jump, argument := 0 }).set 0
      { operation := BootCodeOperation.NoOp, argument := 0 }
    = SAMPLE_INSTRUCTIONS :=
  (part_2_single_mutation_and_restore.2.2.1 SAMPLE_INSTRUCTIONS 0
    { operation := BootCodeOperation.NoOp, argument := 0 }
    BootCodeOperation.Jump rfl rfl).2.2.2

/-- C10: `part_2` returns a value only when some swapped trial terminates
(instruction counter exactly at program length) or errors: when the collected
interesting-result list is empty the `.first().unwrap()` panics (`none`), and
when it is headed by an `Err` the `.as_ref().unwrap()` panics, rather than
returning `Err`.  On the concrete parseable program `"jmp +0\njmp +0\n"`,
both swapped variants loop forever and `part_2` panics. -/
theorem part_2_panics_when_all_trials_loop :
    (∀ (s : Str) (instructions fin : List BootCodeInstruction),
      parse_instructions s = Except.ok instructions →
      part2Trials instructions (List.range instructions.length) = some ([], fin) →
      part_2 s = none) ∧
    (∀ (s : Str) (v : Except String Int), part_2 s = some v →
      (∃ e, parse_instructions s = Except.error e ∧ v = Except.error e) ∨
      (∃ (instructions fin : List BootCodeInstruction) (a : Int)
          (rest : List (Except String Int)),
        parse_instructions s = Except.ok instructions ∧
        part2Trials instructions (List.range instructions.length) =
          some (Except.ok a :: rest, fin) ∧
        v = Except.ok a)) ∧
    part_2 ("jmp +0\njmp +0\n").data = none := by
  refine ⟨?_, ?_, rfl⟩
  · intro s instructions fin hparse htrials
    simp only [part_2, hparse, htrials]
  · intro s v hv
    cases hparse : parse_instructions s with
    | error e =>
      simp only [part_2, hparse, Option.some.injEq] at hv
      exact Or.inl ⟨e, rfl, hv.symm⟩
    | ok instructions =>
      cases htrials : part2Trials instructions (List.range instructions.length) with
      | none =>
        simp only [part_2, hparse, htrials] at hv
        exact Option.noConfusion hv
      | some p =>
        obtain ⟨results, fin⟩ := p
        cases results with
        | nil =>
          simp only [part_2, hparse, htrials] at hv
          exact Option.noConfusion hv
        | cons r rest =>
          cases r with
          | error e =>
            simp only [part_2, hparse, htrials] at hv
            exact Option.noConfusion hv
          | ok a =>
            simp only [part_2, hparse, htrials, Option.some.injEq] at hv
            exact Or.inr ⟨instructions, fin, a, rest, rfl, htrials, hv.symm⟩

/-- Witness for C10: the all-`Accumulate` program has no trials at all, so
its collected result list is empty and `part_2` panics. -/
theorem part_2_panics_when_all_trials_loop_witness :
    part_2 ("acc +0\n").data = none :=
  part_2_panics_when_all_trials_loop.1 ("acc +0\n").data
    [{ operation := BootCodeOperation.Accumulate, argument := 0 }]
    [{ operation := BootCodeOperation.Accumulate, argument := 0 }] rfl rfl

/-- Characterization of the first-space split used by `parse_instructions`. -/
lemma splitFirstSpace_eq_some_iff (l : Str) :
    ∀ (a b : Str),
      splitFirstSpace l = some (a, b) ↔ l = a ++ ' ' :: b ∧ ' ' ∉ a := by
  induction l with
  | nil =>
    intro a b
    constructor
    · intro h
      exact Option.noConfusion h
    · rintro ⟨h, -⟩
      cases a <;> exact List.noConfusion h
  | cons c rest ih =>
    intro a b
    rw [splitFirstSpace]
    by_cases hc : c = ' '
    · subst hc
      rw [if_pos rfl]
      constructor
      · intro h
        injection h with h'
        injection h' with ha hb
        subst ha
        subst hb
        exact ⟨rfl, by simp⟩
      · rintro ⟨heq, hnmem⟩
        cases a with
        | nil =>
          injection heq with h1 h2
          subst h2
          rfl
        | cons x a' =>
          injection heq with h1 h2
          exact absurd (List.mem_cons.mpr (Or.inl h1)) hnmem
    · rw [if_neg hc]
      constructor
      · intro h
        obtain ⟨⟨a', b'⟩, hsp, heq⟩ := Option.map_eq_some'.mp h
        injection heq with ha hb
        subst ha
        subst hb
        obtain ⟨hl, hnm⟩ := (ih a' b').mp hsp
        constructor
        · rw [hl]
          rfl
        · intro hm
          rcases List.mem_cons.mp hm with he | hm'
          · exact hc he.symm
          · exact hnm hm'
      · rintro ⟨heq, hnm⟩
        cases a with
        | nil =>
          injection heq with h1 h2
          exact absurd h1 hc
        | cons x a' =>
          injection heq with h1 h2
          subst h1
          have hnm' : ' ' ∉ a' := fun hm => hnm (List.mem_cons_of_mem _ hm)
          rw [(ih a' b).mpr ⟨h2, hnm'⟩]
          rfl

/-- The mnemonic match succeeds only on the three mnemonics. -/
lemma operationFromStr_cases {l : Str} {op : BootCodeOperation}
    (h : operationFromStr l = some op) :
    (l = "acc".data ∧ op = BootCodeOperation.Accumulate) ∨
    (l = "jmp".data ∧ op = BootCodeOperation.Jump) ∨
    (l = "nop".data ∧ op = BootCodeOperation.NoOp) := by
  rw [operationFromStr] at h
  by_cases h1 : l = "acc".data
  · rw [if_pos h1] at h
    exact Or.inl ⟨h1, (Option.some.inj h).symm⟩
  · rw [if_neg h1] at h
    by_cases h2 : l = "jmp".data
    · rw [if_pos h2] at h
      exact Or.inr (Or.inl ⟨h2, (Option.some.inj h).symm⟩)
    · rw [if_neg h2] at h
      by_cases h3 : l = "nop".data
      · rw [if_pos h3] at h
        exact Or.inr (Or.inr ⟨h3, (Option.some.inj h).symm⟩)
      · rw [if_neg h3] at h
        exact Option.noConfusion h

/-- Take and drop through a three-character mnemonic and its dividing
space. -/
lemma take_drop_mnemonic (mn b : Str) (hm : mn.length = 3) :
    (mn ++ ' ' :: b).take 4 = mn ++ [' '] ∧ (mn ++ ' ' :: b).drop 4 = b := by
  constructor
  · rw [List.take_append_eq_append_take, hm,
      List.take_of_length_le (by omega : mn.length ≤ 4)]
    rfl
  · rw [List.drop_append_eq_append_drop, hm,
      List.drop_of_length_le (by omega : mn.length ≤ 4)]
    rfl

/-- A line parses to an instruction exactly when it has the shape the spec
names: a mnemonic in {acc, jmp, nop}, one space, and an `i16` argument. -/
lemma parseLine_ok_iff (l : Str) :
    (∃ i, parseLine l = Except.ok i) ↔ goodInstructionLine l = true := by
  constructor
  · rintro ⟨i, h⟩
    cases hsp : splitFirstSpace l with
    | none =>
      simp only [parseLine, hsp] at h
      exact Except.noConfusion h
    | some p =>
      obtain ⟨a0, b0⟩ := p
      simp only [parseLine, hsp] at h
      cases hop : operationFromStr a0 with
      | none =>
        simp only [hop] at h
        exact Except.noConfusion h
      | some op =>
        simp only [hop] at h
        cases harg : rustParseI16 (stripPlus b0) with
        | none =>
          simp only [harg] at h
          exact Except.noConfusion h
        | some v =>
          obtain ⟨hl, hnsp⟩ := (splitFirstSpace_eq_some_iff l a0 b0).mp hsp
          subst hl
          rcases operationFromStr_cases hop with ⟨ha, -⟩ | ⟨ha, -⟩ | ⟨ha, -⟩
          · subst ha
            obtain ⟨htake, hdrop⟩ := take_drop_mnemonic ("acc".data) b0 rfl
            rw [goodInstructionLine, htake, hdrop, harg]
            rfl
          · subst ha
            obtain ⟨htake, hdrop⟩ := take_drop_mnemonic ("jmp".data) b0 rfl
            rw [goodInstructionLine, htake, hdrop, harg]
            rfl
          · subst ha
            obtain ⟨htake, hdrop⟩ := take_drop_mnemonic ("nop".data) b0 rfl
            rw [goodInstructionLine, htake, hdrop, harg]
            rfl
  · intro hg
    simp only [goodInstructionLine, Bool.and_eq_true, Bool.or_eq_true,
      beq_iff_eq] at hg
    obtain ⟨hmn, hisome⟩ := hg
    obtain ⟨v, hv⟩ := Option.isSome_iff_exists.mp hisome
    have hsplit : ∀ (mn : Str) (op : BootCodeOperation), ' ' ∉ mn →
        l.take 4 = mn ++ [' '] → operationFromStr mn = some op →
        ∃ i, parseLine l = Except.ok i := by
      intro mn op hnsp htake hop
      have hl : l = mn ++ ' ' :: l.drop 4 := by
        conv_lhs => rw [← List.take_append_drop 4 l]
        rw [htake]
        simp
      have hsp : splitFirstSpace l = some (mn, l.drop 4) :=
        (splitFirstSpace_eq_some_iff l mn (l.drop 4)).mpr ⟨hl, hnsp⟩
      refine ⟨{ operation := op, argument := v }, ?_⟩
      simp only [parseLine, hsp, hop, hv]
    rcases hmn with (hmn | hmn) | hmn
    · exact hsplit "acc".data BootCodeOperation.Accumulate (by decide) hmn rfl
    · exact hsplit "jmp".data BootCodeOperation.Jump (by decide) hmn rfl
    · exact hsplit "nop".data BootCodeOperation.NoOp (by decide) hmn rfl

/-- If every line is well-shaped, the whole parse succeeds with one
instruction per line. -/
lemma parse_aux_ok_of_all_good :
    ∀ ls : List Str, (∀ l ∈ ls, goodInstructionLine l = true) →
      ∃ instructions, parse_instructions_aux ls = Except.ok instructions ∧
        instructions.length = ls.length := by
  intro ls
  induction ls with
  | nil => intro _; exact ⟨[], rfl, rfl⟩
  | cons l rest ih =>
    intro h
    obtain ⟨i, hi⟩ := (parseLine_ok_iff l).mpr (h l (List.mem_cons_self l rest))
    obtain ⟨instrs, hrest, hlen⟩ := ih fun x hx => h x (List.mem_cons_of_mem l hx)
    refine ⟨i :: instrs, ?_, by simp [hlen]⟩
    simp only [parse_instructions_aux, hi, hrest]
    rfl

/-- If some line is ill-shaped, the whole parse fails. -/
lemma parse_aux_error_of_some_bad :
    ∀ ls : List Str, (∃ l ∈ ls, goodInstructionLine l = false) →
      ∃ e, parse_instructions_aux ls = Except.error e := by
  intro ls
  induction ls with
  | nil =>
    rintro ⟨l, hl, -⟩
    exact absurd hl (List.not_mem_nil l)
  | cons l rest ih =>
    rintro ⟨x, hx, hbad⟩
    cases hpl : parseLine l with
    | error e =>
      refine ⟨e, ?_⟩
      simp only [parse_instructions_aux, hpl]
    | ok i =>
      have hlg : goodInstructionLine l = true := (parseLine_ok_iff l).mp ⟨i, hpl⟩
      rcases List.mem_cons.mp hx with rfl | hx'
      · rw [hlg] at hbad
        exact Bool.noConfusion hbad
      · obtain ⟨e, he⟩ := ih ⟨x, hx', hbad⟩
        refine ⟨e, ?_⟩
        simp only [parse_instructions_aux, hpl, he]
        rfl

/-- C4: `parse_instructions` follows the parse-or-bail discipline: it is a
total function into `Except` (no panic path), returning `Err` whenever some
line is not an {acc, jmp, nop} mnemonic followed by a single space and an
(optionally `'+'`-prefixed) argument representable as an `i16`, and `Ok`
with exactly one instruction per line otherwise. -/
theorem parse_instructions_parse_or_bail :
    ∀ s : Str,
      ((∀ l ∈ lines_without_endings s, goodInstructionLine l = true) →
        ∃ instructions, parse_instructions s = Except.ok instructions ∧
          instructions.length = (lines_without_endings s).length) ∧
      ((∃ l ∈ lines_without_endings s, goodInstructionLine l = false) →
        ∃ e, parse_instructions s = Except.error e) := by
  intro s
  exact ⟨fun h => parse_aux_ok_of_all_good (lines_without_endings s) h,
    fun h => parse_aux_error_of_some_bad (lines_without_endings s) h⟩

/-- Witness for C4: a two-line well-formed program parses to two
instructions, and a program with an out-of-`i16`-range argument fails. -/
theorem parse_instructions_parse_or_bail_witness :
    (∃ instructions,
      parse_instructions ("acc +1\njmp -2\n").data = Except.ok instructions ∧
      instructions.length =
        (lines_without_endings ("acc +1\njmp -2\n").data).length) ∧
    (∃ e, parse_instructions ("acc 99999\n").data = Except.error e) :=
  ⟨(parse_instructions_parse_or_bail ("acc +1\njmp -2\n").data).1 (by decide),
   (parse_instructions_parse_or_bail ("acc 99999\n").data).2
     ⟨"acc 99999".data, by decide, by decide⟩⟩

end D08

namespace D10

/-- C8: `num_valid_variants` applied to the `JoltageAdapterSet` parsed from
the first hard-coded sample (adapters 16, 10, 15, 5, 1, 11, 7, 19, 6, 12, 4)
returns `Ok(8)`. -/
theorem num_valid_variants_first_sample :
    ∃ adapters, parse_joltage_adapter_set FIRST_SAMPLE = Except.ok adapters ∧
      num_valid_variants adapters = Except.ok 8 :=
  ⟨[0, 1, 4, 5, 6, 7, 10, 11, 12, 15, 16, 19], rfl, rfl⟩

end D10

namespace D11

/-- A seat rule fires at a tile exactly when the per-tile update changes that
tile. -/
lemma tile_fires_false_iff {b : WaitingAreaOccupantBehavior}
    {m : WaitingAreaMap} {idx : Nat} {t : WaitingAreaMapTile} :
    tile_fires b m idx t = false ↔ next_tile b m idx t = t := by
  cases t with
  | Floor => simp [tile_fires, next_tile]
  | Seat occupied =>
    cases occupied with
    | false =>
      cases hb : b.would_enter_seat m idx <;> simp [tile_fires, next_tile, hb]
    | true =>
      cases hb : b.would_leave_seat m idx <;> simp [tile_fires, next_tile, hb]

/-- The `changed` flag is false on a tile range exactly when the update maps
that range to itself. -/
lemma anyWithIndex_fires_false_iff (b : WaitingAreaOccupantBehavior)
    (m : WaitingAreaMap) :
    ∀ (idx : Nat) (ts : List WaitingAreaMapTile),
      anyWithIndex (tile_fires b m) idx ts = false ↔
        mapWithIndex (next_tile b m) idx ts = ts := by
  intro idx ts
  induction ts generalizing idx with
  | nil => simp [anyWithIndex, mapWithIndex]
  | cons t rest ih =>
    simp only [anyWithIndex, mapWithIndex, Bool.or_eq_false_iff, List.cons.injEq]
    rw [tile_fires_false_iff, ih (idx + 1)]

/-- `next_step` returns `none` exactly when the map is a fixed point of the
step function. -/
lemma next_step_none_iff (b : WaitingAreaOccupantBehavior)
    (m : WaitingAreaMap) : next_step b m = none ↔ next_map b m = m := by
  obtain ⟨tiles, width⟩ := m
  have hiff := anyWithIndex_fires_false_iff b ⟨tiles, width⟩ 0 tiles
  cases hch : step_changed b ⟨tiles, width⟩ with
  | false =>
    have hmap := hiff.mp (by simpa [step_changed] using hch)
    simp [next_step, hch, next_map, hmap]
  | true =>
    have hne : ¬ mapWithIndex (next_tile b ⟨tiles, width⟩) 0 tiles = tiles := by
      intro he
      have := hiff.mpr he
      rw [step_changed] at hch
      rw [this] at hch
      exact Bool.noConfusion hch
    simp [next_step, hch, next_map]
    intro he
    exact hne he

/-- Any map returned by the simulation loop is one on which `next_step`
returns `none`. -/
lemma run_simulation_exhausted (b : WaitingAreaOccupantBehavior) :
    ∀ (fuel : Nat) (m m' : WaitingAreaMap),
      run_simulation b fuel m = some m' → next_step b m' = none := by
  intro fuel
  induction fuel with
  | zero => intro m m' h; exact Option.noConfusion h
  | succ n ih =>
    intro m m' h
    rw [run_simulation] at h
    cases hst : next_step b m with
    | none =>
      rw [hst] at h
      cases Option.some.inj h
      exact hst
    | some m'' =>
      rw [hst] at h
      exact ih m'' m' h

/-- C2: for every map and occupant behavior, `next_step` returns `none` if
and only if the behavior's enter/leave rules change no tile (the map is a
fixed point of the step function); and the `num_seats_with_behavior` loop
iterates `next_step` until `none`, so the map whose occupied seats it counts
is unchanged by one further step. -/
theorem next_step_fixed_point_characterization :
    (∀ (b : WaitingAreaOccupantBehavior) (m : WaitingAreaMap),
      next_step b m = none ↔ next_map b m = m) ∧
    (∀ (b : WaitingAreaOccupantBehavior) (fuel : Nat) (m : WaitingAreaMap)
        (n : Nat), num_seats_from_map b fuel m = some n →
      ∃ m', run_simulation b fuel m = some m' ∧ n = count_occupied m' ∧
        next_step b m' = none ∧ next_map b m' = m') := by
  refine ⟨next_step_none_iff, ?_⟩
  intro b fuel m n h
  rw [num_seats_from_map] at h
  obtain ⟨m', hrun, hcount⟩ := Option.map_eq_some'.mp h
  have hexh := run_simulation_exhausted b fuel m m' hrun
  exact ⟨m', hrun, hcount.symm, hexh, (next_step_none_iff b m').mp hexh⟩

/-- Witness for C2: a single never-entered seat is already a fixed point. -/
theorem next_step_fixed_point_characterization_witness :
    ∃ m', run_simulation ⟨fun _ _ => false, fun _ _ => false⟩ 1
        ⟨[WaitingAreaMapTile.Seat false], 1⟩ = some m' ∧
      0 = count_occupied m' ∧
      next_step ⟨fun _ _ => false, fun _ _ => false⟩ m' = none ∧
      next_map ⟨fun _ _ => false, fun _ _ => false⟩ m' = m' :=
  next_step_fixed_point_characterization.2
    ⟨fun _ _ => false, fun _ _ => false⟩ 1
    ⟨[WaitingAreaMapTile.Seat false], 1⟩ 0 rfl

/-- `mapWithIndex` preserves length. -/
lemma mapWithIndex_length {α β : Type} (f : Nat → α → β) :
    ∀ (idx : Nat) (l : List α), (mapWithIndex f idx l).length = l.length := by
  intro idx l
  induction l generalizing idx with
  | nil => rfl
  | cons t rest ih => simp [mapWithIndex, ih]

/-- Elementwise view of `mapWithIndex`. -/
lemma mapWithIndex_getElem? {α β : Type} (f : Nat → α → β) :
    ∀ (idx : Nat) (l : List α) (i : Nat),
      (mapWithIndex f idx l)[i]? = (l[i]?).map (f (idx + i)) := by
  intro idx l
  induction l generalizing idx with
  | nil => intro i; simp [mapWithIndex]
  | cons t rest ih =>
    intro i
    cases i with
    | zero => simp [mapWithIndex]
    | succ j =>
      simp only [mapWithIndex, List.getElem?_cons_succ, ih (idx + 1) j]
      have : idx + 1 + j = idx + (j + 1) := by omega
      rw [this]

/-- The per-tile update never changes whether a tile is a seat. -/
lemma tileIsSeat_next_tile (b : WaitingAreaOccupantBehavior)
    (m : WaitingAreaMap) (idx : Nat) (t : WaitingAreaMapTile) :
    tileIsSeat (next_tile b m idx t) = tileIsSeat t := by
  cases t with
  | Floor => rfl
  | Seat occupied =>
    cases occupied with
    | false => cases hb : b.would_enter_seat m idx <;> simp [next_tile, hb, tileIsSeat]
    | true => cases hb : b.would_leave_seat m idx <;> simp [next_tile, hb, tileIsSeat]

/-- C9: one `next_step` update preserves the map width, the tile count, and
the seat/floor skeleton — every floor tile maps to a floor tile at the same
index and only seats ever change — and therefore the whole simulation
preserves the seat-position set of the initial map. -/
theorem next_step_preserves_seat_positions :
    (∀ (b : WaitingAreaOccupantBehavior) (m : WaitingAreaMap),
      (next_map b m).map_width = m.map_width ∧
      (next_map b m).tiles.length = m.tiles.length ∧
      (∀ i : Nat, m.tiles[i]? = some WaitingAreaMapTile.Floor →
        (next_map b m).tiles[i]? = some WaitingAreaMapTile.Floor) ∧
      (∀ i : Nat, ((next_map b m).tiles[i]?).map tileIsSeat =
        (m.tiles[i]?).map tileIsSeat)) ∧
    (∀ (b : WaitingAreaOccupantBehavior) (fuel : Nat) (m m' : WaitingAreaMap),
      run_simulation b fuel m = some m' →
      m'.map_width = m.map_width ∧ m'.tiles.length = m.tiles.length ∧
      ∀ i : Nat, (m'.tiles[i]?).map tileIsSeat = (m.tiles[i]?).map tileIsSeat) := by
  have hstep : ∀ (b : WaitingAreaOccupantBehavior) (m : WaitingAreaMap),
      (next_map b m).map_width = m.map_width ∧
      (next_map b m).tiles.length = m.tiles.length ∧
      (∀ i : Nat, m.tiles[i]? = some WaitingAreaMapTile.Floor →
        (next_map b m).tiles[i]? = some WaitingAreaMapTile.Floor) ∧
      (∀ i : Nat, ((next_map b m).tiles[i]?).map tileIsSeat =
        (m.tiles[i]?).map tileIsSeat) := by
    intro b m
    refine ⟨rfl, mapWithIndex_length _ 0 m.tiles, ?_, ?_⟩
    · intro i hfloor
      show (mapWithIndex (next_tile b m) 0 m.tiles)[i]? = _
      rw [mapWithIndex_getElem?, hfloor]
      rfl
    · intro i
      show ((mapWithIndex (next_tile b m) 0 m.tiles)[i]?).map tileIsSeat = _
      rw [mapWithIndex_getElem?]
      cases m.tiles[i]? with
      | none => rfl
      | some t => simp [tileIsSeat_next_tile]
  refine ⟨hstep, ?_⟩
  intro b fuel
  induction fuel with
  | zero => intro m m' h; exact Option.noConfusion h
  | succ n ih =>
    intro m m' h
    rw [run_simulation] at h
    cases hst : next_step b m with
    | none =>
      rw [hst] at h
      cases Option.some.inj h
      exact ⟨rfl, rfl, fun i => rfl⟩
    | some m'' =>
      rw [hst] at h
      have hm'' : m'' = next_map b m := by
        rw [next_step] at hst
        by_cases hch : step_changed b m = true
        · rw [if_pos hch] at hst
          exact (Option.some.inj hst).symm
        · rw [if_neg hch] at hst
          exact Option.noConfusion hst
      obtain ⟨hw, hlen, hseat⟩ := ih m'' m' h
      obtain ⟨hw0, hlen0, _, hseat0⟩ := hstep b m
      subst hm''
      exact ⟨hw.trans hw0, hlen.trans hlen0,
        fun i => (hseat i).trans (hseat0 i)⟩

/-- Witness for C9: the simulation on a single never-entered seat preserves
the seat skeleton. -/
theorem next_step_preserves_seat_positions_witness :
    (⟨[WaitingAreaMapTile.Seat false], 1⟩ : WaitingAreaMap).map_width =
      (⟨[WaitingAreaMapTile.Seat false], 1⟩ : WaitingAreaMap).map_width ∧
    (⟨[WaitingAreaMapTile.Seat false], 1⟩ : WaitingAreaMap).tiles.length =
      (⟨[WaitingAreaMapTile.Seat false], 1⟩ : WaitingAreaMap).tiles.length ∧
    ∀ i : Nat, (((⟨[WaitingAreaMapTile.Seat false], 1⟩ :
          WaitingAreaMap)).tiles[i]?).map tileIsSeat =
      (((⟨[WaitingAreaMapTile.Seat false], 1⟩ :
          WaitingAreaMap)).tiles[i]?).map tileIsSeat :=
  next_step_preserves_seat_positions.2
    ⟨fun _ _ => false, fun _ _ => false⟩ 1
    ⟨[WaitingAreaMapTile.Seat false], 1⟩
    ⟨[WaitingAreaMapTile.Seat false], 1⟩ rfl

end D11

end AoC2020
